import Mathlib

/-!
Verification of the `Family` metric cache (`src/metrics/family.rs`).

A `Family<S, M>` maps label sets `S` to metric instances `M`, lazily
constructed on first access by a stored zero-argument constructor and
shared behind an `Arc<RwLock<HashMap<S, M>>>`.

The shallow embedding below models:
* the `HashMap<S, M>` as an association list `List (S × Instance M)`, where
  `Instance M` tags each constructed metric value with an allocation
  identifier so that distinctness of instances is observable;
* `get_or_create` as a pure function on the `Family` state, returning the
  updated state together with the identifier of the borrowed instance and
  instrumentation flags recording which branch ran (whether the constructor
  was invoked, whether the exclusive lock was taken).  The
  `expect("Metric to exist after creating it.")` is modelled by an
  `Option` result, `none` standing for that panic;
* the `Arc` sharing behind `clone` by a world of map cells addressed by a
  reference, a `Family` handle holding the reference and the constructor;
* the concurrency of `get_or_create` by a small-step machine: each thread
  runs the phases of `get_or_create` (fast-path lookup under the read lock,
  insert under the write lock, re-read, then a caller-side increment), and a
  schedule interleaves the threads' atomic steps arbitrarily;
* lock poisoning by an `Except` layer with one acquisition per `unwrap`
  site in the source.
-/

section AssocMap

variable {S : Type} [DecidableEq S] {α : Type}

/-- Lookup in an association list, modelling `HashMap::get`. -/
def assocLookup : List (S × α) → S → Option α
  | [], _ => none
  | (k, v) :: t, key => if k = key then some v else assocLookup t key

/-- Insert into an association list, modelling `HashMap::insert`: an entry
with the same key is replaced, other entries are untouched. -/
def assocInsert : List (S × α) → S → α → List (S × α)
  | [], key, v => [(key, v)]
  | (k, w) :: t, key, v =>
      if k = key then (key, v) :: t else (k, w) :: assocInsert t key v

end AssocMap

/-- A metric value as stored in the map, tagged with the identifier of the
allocation that produced it, so that "same instance" is expressible. -/
structure Instance (M : Type) where
  id : Nat
  value : M
  deriving DecidableEq, Repr

/-- The `Family<S, M>` state: the guarded `HashMap<S, M>` (as an association
list of identified instances), the allocation counter for fresh instance
identifiers, and the stored `fn() -> M` constructor. -/
structure Family (S : Type) (M : Type) where
  metrics : List (S × Instance M)
  nextId : Nat
  constructor : Unit → M

variable {S : Type} [DecidableEq S] {M : Type}

/-- `impl Default for Family` (`family.rs` lines 125-132): an empty map and
`M::default` as the stored constructor. -/
def Family.defaultFamily (S M : Type) [Inhabited M] : Family S M :=
  { metrics := [], nextId := 0, constructor := fun _ => default }

/-- `Family::new_with_constructor` (`family.rs` lines 134-141): an empty map
and the supplied constructor. -/
def Family.new_with_constructor (S : Type) (c : Unit → M) : Family S M :=
  { metrics := [], nextId := 0, constructor := c }

/-- The slow path of `get_or_create` under the write lock (`family.rs`
lines 152-153): unconditionally insert a freshly constructed instance for
the key, with a fresh identifier. -/
def Family.slowInsert (f : Family S M) (key : S) : Family S M :=
  { f with
    metrics := assocInsert f.metrics key ⟨f.nextId, f.constructor ()⟩
    nextId := f.nextId + 1 }

/-- What `get_or_create` hands back: the `Family` state after the call, the
identifier of the instance the returned (read-locked) handle borrows, and
instrumentation: whether the stored constructor was invoked and whether the
exclusive (write) lock was acquired. -/
structure GocResult (S : Type) (M : Type) where
  family : Family S M
  handleId : Nat
  constructed : Bool
  tookWriteLock : Bool

/-- `Family::get_or_create` (`family.rs` lines 144-163).  Fast path: the key
is found under the read lock and a handle to it is returned with no state
change.  Slow path: release the read lock, insert a fresh instance under the
write lock, re-acquire the read lock and look the key up again; the
`expect("Metric to exist after creating it.")` on that second lookup is
modelled by `none`. -/
def Family.get_or_create (f : Family S M) (key : S) : Option (GocResult S M) :=
  match assocLookup f.metrics key with
  | some inst => some ⟨f, inst.id, false, false⟩
  | none =>
      let f' := f.slowInsert key
      match assocLookup f'.metrics key with
      | some inst => some ⟨f', inst.id, true, true⟩
      | none => none

/-- `impl Clone for Family` shares the map (one `Arc`); in the sequential
state model a `Family` value is the shared cell's state, so the interesting
content of `clone` lives in the world model below.  `Family::read`
(`family.rs` lines 165-167) exposes the map under the read lock. -/
def Family.readMap (f : Family S M) : List (S × Instance M) :=
  f.metrics

/-- The identifiers of the instances currently stored in a map. -/
def mapIds (l : List (S × Instance M)) : List Nat :=
  l.map (fun p => p.2.id)

/-- Well-formedness of a `Family` state, maintained by every operation:
keys are distinct (a `HashMap` invariant), instance identifiers are distinct
and below the allocation counter. -/
def Family.WF (f : Family S M) : Prop :=
  (f.metrics.map Prod.fst).Nodup ∧ (mapIds f.metrics).Nodup ∧
    ∀ i ∈ mapIds f.metrics, i < f.nextId

instance (f : Family S M) : Decidable f.WF := by
  unfold Family.WF; infer_instance

example : (Family.new_with_constructor (S := Nat) (fun _ => (0 : Nat))).WF := by
  decide


section AssocLemmas

variable {S : Type} [DecidableEq S] {α : Type}

@[simp] theorem assocInsert_nil (k : S) (v : α) :
    assocInsert [] k v = [(k, v)] := rfl

theorem assocInsert_cons_pos {k₁ k : S} {w : α} (t : List (S × α)) (v : α)
    (h : k₁ = k) : assocInsert ((k₁, w) :: t) k v = (k, v) :: t := by
  simp [assocInsert, h]

theorem assocInsert_cons_neg {k₁ k : S} {w : α} (t : List (S × α)) (v : α)
    (h : ¬k₁ = k) :
    assocInsert ((k₁, w) :: t) k v = (k₁, w) :: assocInsert t k v := by
  simp [assocInsert, h]

@[simp] theorem assocLookup_nil (k : S) :
    assocLookup ([] : List (S × α)) k = none := rfl

theorem assocLookup_cons (k₁ : S) (w : α) (t : List (S × α)) (k : S) :
    assocLookup ((k₁, w) :: t) k = if k₁ = k then some w else assocLookup t k :=
  rfl

theorem assocLookup_insert_self (l : List (S × α)) (k : S) (v : α) :
    assocLookup (assocInsert l k v) k = some v := by
  induction l with
  | nil => simp [assocLookup_cons]
  | cons p t ih =>
      obtain ⟨k₁, w⟩ := p
      by_cases h : k₁ = k
      · rw [assocInsert_cons_pos t v h, assocLookup_cons, if_pos rfl]
      · rw [assocInsert_cons_neg t v h, assocLookup_cons, if_neg h, ih]

theorem assocLookup_insert_ne (l : List (S × α)) (k k' : S) (v : α)
    (h : k' ≠ k) : assocLookup (assocInsert l k v) k' = assocLookup l k' := by
  induction l with
  | nil => simp [assocLookup_cons, if_neg (Ne.symm h)]
  | cons p t ih =>
      obtain ⟨k₁, w⟩ := p
      by_cases hk : k₁ = k
      · subst hk
        rw [assocInsert_cons_pos t v rfl, assocLookup_cons, assocLookup_cons,
          if_neg (Ne.symm h), if_neg fun hh => h hh.symm]
      · rw [assocInsert_cons_neg t v hk, assocLookup_cons, assocLookup_cons, ih]

theorem mem_of_assocLookup {l : List (S × α)} {k : S} {v : α}
    (h : assocLookup l k = some v) : (k, v) ∈ l := by
  induction l with
  | nil => simp at h
  | cons p t ih =>
      obtain ⟨k₁, w⟩ := p
      rw [assocLookup_cons] at h
      by_cases hk : k₁ = k
      · subst hk
        rw [if_pos rfl] at h
        obtain rfl : w = v := by injection h
        exact List.mem_cons_self _ _
      · rw [if_neg hk] at h
        exact List.mem_cons_of_mem _ (ih h)

theorem fst_mem_assocInsert {l : List (S × α)} {k k' : S} {v : α}
    (h : k' ∈ (assocInsert l k v).map Prod.fst) :
    k' = k ∨ k' ∈ l.map Prod.fst := by
  induction l with
  | nil => simpa using h
  | cons p t ih =>
      obtain ⟨k₁, w⟩ := p
      by_cases hk : k₁ = k
      · rw [assocInsert_cons_pos t v hk, List.map_cons] at h
        rcases List.mem_cons.mp h with h' | h'
        · exact Or.inl h'
        · exact Or.inr (by rw [List.map_cons]; exact List.mem_cons_of_mem _ h')
      · rw [assocInsert_cons_neg t v hk, List.map_cons] at h
        rcases List.mem_cons.mp h with h' | h'
        · exact Or.inr (by rw [List.map_cons]; exact h' ▸ List.mem_cons_self _ _)
        · rcases ih h' with h'' | h''
          · exact Or.inl h''
          · exact Or.inr (by rw [List.map_cons]; exact List.mem_cons_of_mem _ h'')

theorem nodup_fst_assocInsert {l : List (S × α)} {k : S} {v : α}
    (h : (l.map Prod.fst).Nodup) : ((assocInsert l k v).map Prod.fst).Nodup := by
  induction l with
  | nil => simp
  | cons p t ih =>
      obtain ⟨k₁, w⟩ := p
      rw [List.map_cons, List.nodup_cons] at h
      by_cases hk : k₁ = k
      · subst hk
        rw [assocInsert_cons_pos t v rfl, List.map_cons, List.nodup_cons]
        exact h
      · rw [assocInsert_cons_neg t v hk, List.map_cons, List.nodup_cons]
        refine ⟨fun hmem => ?_, ih h.2⟩
        rcases fst_mem_assocInsert hmem with h' | h'
        · exact hk h'
        · exact h.1 h'

end AssocLemmas

section IdLemmas

variable {S : Type} [DecidableEq S] {M : Type}

@[simp] theorem mapIds_nil : mapIds ([] : List (S × Instance M)) = [] := rfl

@[simp] theorem mapIds_cons (p : S × Instance M) (t : List (S × Instance M)) :
    mapIds (p :: t) = p.2.id :: mapIds t := rfl

theorem mem_mapIds_assocInsert {l : List (S × Instance M)} {k : S}
    {x : Instance M} {i : Nat} (h : i ∈ mapIds (assocInsert l k x)) :
    i = x.id ∨ i ∈ mapIds l := by
  induction l with
  | nil => simpa using h
  | cons p t ih =>
      obtain ⟨k₁, w⟩ := p
      by_cases hk : k₁ = k
      · rw [assocInsert_cons_pos t x hk, mapIds_cons] at h
        rcases List.mem_cons.mp h with h' | h'
        · exact Or.inl h'
        · exact Or.inr (by rw [mapIds_cons]; exact List.mem_cons_of_mem _ h')
      · rw [assocInsert_cons_neg t x hk, mapIds_cons] at h
        rcases List.mem_cons.mp h with h' | h'
        · exact Or.inr (by rw [mapIds_cons]; exact h' ▸ List.mem_cons_self _ _)
        · rcases ih h' with h'' | h''
          · exact Or.inl h''
          · exact Or.inr (by rw [mapIds_cons]; exact List.mem_cons_of_mem _ h'')

theorem nodup_mapIds_assocInsert {l : List (S × Instance M)} {k : S}
    {x : Instance M} (h : (mapIds l).Nodup) (hx : x.id ∉ mapIds l) :
    (mapIds (assocInsert l k x)).Nodup := by
  induction l with
  | nil => simp
  | cons p t ih =>
      obtain ⟨k₁, w⟩ := p
      rw [mapIds_cons, List.nodup_cons] at h
      rw [mapIds_cons, List.mem_cons] at hx
      push_neg at hx
      by_cases hk : k₁ = k
      · rw [assocInsert_cons_pos t x hk, mapIds_cons, List.nodup_cons]
        exact ⟨hx.2, h.2⟩
      · rw [assocInsert_cons_neg t x hk, mapIds_cons, List.nodup_cons]
        refine ⟨fun hmem => ?_, ih h.2 hx.2⟩
        rcases mem_mapIds_assocInsert hmem with h' | h'
        · exact hx.1 h'.symm
        · exact h.1 h'

theorem id_mem_mapIds_of_assocLookup {l : List (S × Instance M)} {k : S}
    {v : Instance M} (h : assocLookup l k = some v) : v.id ∈ mapIds l :=
  List.mem_map.mpr ⟨(k, v), mem_of_assocLookup h, rfl⟩

theorem old_id_not_mem_after_insert {l : List (S × Instance M)} {k : S}
    {old x : Instance M} (hnodup : (mapIds l).Nodup)
    (hold : assocLookup l k = some old) (hx : x.id ≠ old.id) :
    old.id ∉ mapIds (assocInsert l k x) := by
  induction l with
  | nil => simp at hold
  | cons p t ih =>
      obtain ⟨k₁, w⟩ := p
      rw [mapIds_cons, List.nodup_cons] at hnodup
      rw [assocLookup_cons] at hold
      by_cases hk : k₁ = k
      · rw [if_pos hk] at hold
        have hw : w = old := by injection hold
        rw [assocInsert_cons_pos t x hk, mapIds_cons]
        intro hmem
        rcases List.mem_cons.mp hmem with h' | h'
        · exact hx h'.symm
        · exact hnodup.1 (hw ▸ h')
      · rw [if_neg hk] at hold
        rw [assocInsert_cons_neg t x hk, mapIds_cons]
        intro hmem
        rcases List.mem_cons.mp hmem with h' | h'
        · exact hnodup.1 (h' ▸ id_mem_mapIds_of_assocLookup hold)
        · exact ih hnodup.2 hold h'

theorem distinct_ids_of_distinct_keys {l : List (S × Instance M)}
    (hnodup : (mapIds l).Nodup) {k₁ k₂ : S} {a b : Instance M}
    (h₁ : assocLookup l k₁ = some a) (h₂ : assocLookup l k₂ = some b)
    (hne : k₁ ≠ k₂) : a.id ≠ b.id := by
  intro hid
  have ha := mem_of_assocLookup h₁
  have hb := mem_of_assocLookup h₂
  have := List.inj_on_of_nodup_map (by simpa [mapIds] using hnodup) ha hb hid
  exact hne (congrArg Prod.fst this)

end IdLemmas

section GocLemmas

variable {S : Type} [DecidableEq S] {M : Type}

theorem get_or_create_of_found {f : Family S M} {k : S} {inst : Instance M}
    (h : assocLookup f.metrics k = some inst) :
    f.get_or_create k = some ⟨f, inst.id, false, false⟩ := by
  simp only [Family.get_or_create, h]

theorem slowInsert_metrics (f : Family S M) (k : S) :
    (f.slowInsert k).metrics =
      assocInsert f.metrics k ⟨f.nextId, f.constructor ()⟩ := rfl

theorem assocLookup_slowInsert_self (f : Family S M) (k : S) :
    assocLookup (f.slowInsert k).metrics k = some ⟨f.nextId, f.constructor ()⟩ :=
  assocLookup_insert_self _ _ _

theorem get_or_create_of_missing {f : Family S M} {k : S}
    (h : assocLookup f.metrics k = none) :
    f.get_or_create k = some ⟨f.slowInsert k, f.nextId, true, true⟩ := by
  simp only [Family.get_or_create, h, assocLookup_slowInsert_self]

theorem get_or_create_isSome (f : Family S M) (k : S) :
    (f.get_or_create k).isSome := by
  cases hl : assocLookup f.metrics k with
  | some inst => rw [get_or_create_of_found hl]; rfl
  | none => rw [get_or_create_of_missing hl]; rfl

theorem get_or_create_lookup_handle {f : Family S M} {k : S} {r : GocResult S M}
    (h : f.get_or_create k = some r) :
    ∃ inst, assocLookup r.family.metrics k = some inst ∧ r.handleId = inst.id := by
  cases hl : assocLookup f.metrics k with
  | some inst =>
      rw [get_or_create_of_found hl] at h
      obtain rfl := (Option.some.inj h).symm
      exact ⟨inst, hl, rfl⟩
  | none =>
      rw [get_or_create_of_missing hl] at h
      obtain rfl := (Option.some.inj h).symm
      exact ⟨⟨f.nextId, f.constructor ()⟩, assocLookup_slowInsert_self f k, rfl⟩

theorem get_or_create_preserves_other {f : Family S M} {k : S} {r : GocResult S M}
    (h : f.get_or_create k = some r) (k' : S) (hk : k' ≠ k) :
    assocLookup r.family.metrics k' = assocLookup f.metrics k' := by
  cases hl : assocLookup f.metrics k with
  | some inst =>
      rw [get_or_create_of_found hl] at h
      obtain rfl := (Option.some.inj h).symm
      rfl
  | none =>
      rw [get_or_create_of_missing hl] at h
      obtain rfl := (Option.some.inj h).symm
      exact assocLookup_insert_ne _ _ _ _ hk

theorem WF_slowInsert {f : Family S M} (h : f.WF) (k : S) :
    (f.slowInsert k).WF := by
  obtain ⟨hkeys, hids, hlt⟩ := h
  have hfresh : f.nextId ∉ mapIds f.metrics := fun hmem =>
    lt_irrefl _ (hlt _ hmem)
  refine ⟨nodup_fst_assocInsert hkeys, nodup_mapIds_assocInsert hids hfresh, ?_⟩
  intro i hi
  rcases mem_mapIds_assocInsert hi with h' | h'
  · simp [Family.slowInsert, h']
  · exact Nat.lt_succ_of_lt (hlt _ h')

theorem WF_get_or_create {f : Family S M} {k : S} {r : GocResult S M}
    (h : f.get_or_create k = some r) (hwf : f.WF) : r.family.WF := by
  cases hl : assocLookup f.metrics k with
  | some inst =>
      rw [get_or_create_of_found hl] at h
      obtain rfl := (Option.some.inj h).symm
      exact hwf
  | none =>
      rw [get_or_create_of_missing hl] at h
      obtain rfl := (Option.some.inj h).symm
      exact WF_slowInsert hwf k

end GocLemmas

section C1C3C4

variable {S : Type} [DecidableEq S] {M : Type}

/-- C1: for every key, `get_or_create(key)` returns a handle borrowing the
metric instance associated with that key in the shared map; and if the key
was not present at the time of the call, a new metric instance constructed
by the stored constructor is inserted into the map under that key before the
handle is returned. -/
theorem get_or_create_handle_and_insert (f : Family S M) (k : S) :
    ∃ r, f.get_or_create k = some r ∧
      (∃ inst, assocLookup r.family.metrics k = some inst ∧
        r.handleId = inst.id) ∧
      (assocLookup f.metrics k = none →
        r.constructed = true ∧
        r.family.metrics = assocInsert f.metrics k ⟨f.nextId, f.constructor ()⟩) := by
  cases hl : assocLookup f.metrics k with
  | some inst =>
      refine ⟨⟨f, inst.id, false, false⟩, get_or_create_of_found hl,
        ⟨inst, hl, rfl⟩, fun hnone => ?_⟩
      exact Option.noConfusion hnone
  | none =>
      exact ⟨⟨f.slowInsert k, f.nextId, true, true⟩, get_or_create_of_missing hl,
        ⟨⟨f.nextId, f.constructor ()⟩, assocLookup_slowInsert_self f k, rfl⟩,
        fun _ => ⟨rfl, rfl⟩⟩

/-- Witness for C1 at a concrete input. -/
theorem get_or_create_handle_and_insert_concrete :
    ∃ r, (Family.new_with_constructor Nat fun _ => (7 : Nat)).get_or_create 0
        = some r ∧
      (∃ inst, assocLookup r.family.metrics 0 = some inst ∧
        r.handleId = inst.id) ∧
      (assocLookup (Family.new_with_constructor Nat fun _ => (7 : Nat)).metrics 0
          = none →
        r.constructed = true ∧
        r.family.metrics = assocInsert
          (Family.new_with_constructor Nat fun _ => (7 : Nat)).metrics 0
          ⟨0, 7⟩) :=
  get_or_create_handle_and_insert (Family.new_with_constructor Nat fun _ => (7 : Nat)) 0

/-- C3: if the key is already present, `get_or_create` takes the fast path:
it invokes no constructor, takes no write lock, and leaves the `Family`
state unchanged; consequently any call sequentially after a first
`get_or_create` of the same key never constructs again. -/
theorem get_or_create_fast_path (f : Family S M) (k : S) :
    (∀ inst, assocLookup f.metrics k = some inst →
      f.get_or_create k = some ⟨f, inst.id, false, false⟩) ∧
    (∀ r, f.get_or_create k = some r →
      r.family.get_or_create k = some ⟨r.family, r.handleId, false, false⟩) := by
  refine ⟨fun inst h => get_or_create_of_found h, fun r h => ?_⟩
  obtain ⟨inst, hl, hid⟩ := get_or_create_lookup_handle h
  rw [get_or_create_of_found hl, hid]

/-- A concrete `Family` state with instance `⟨0, 5⟩` stored under key
`0`. -/
def presentFam : Family Nat Nat :=
  { metrics := [(0, ⟨0, 5⟩)], nextId := 1, constructor := fun _ => 7 }

/-- The fast-path result of `get_or_create(0)` on `presentFam`. -/
def presentRes : GocResult Nat Nat := ⟨presentFam, 0, false, false⟩

/-- Witness for C3 at a concrete input: key `0` is present, so
`get_or_create(0)` takes the fast path, and a repeated call does too. -/
theorem get_or_create_fast_path_concrete :
    assocLookup presentFam.metrics 0 = some ⟨0, 5⟩ ∧
    presentFam.get_or_create 0 = some ⟨presentFam, 0, false, false⟩ ∧
    presentRes.family.get_or_create 0
      = some ⟨presentRes.family, presentRes.handleId, false, false⟩ :=
  ⟨by decide,
    (get_or_create_fast_path presentFam 0).1 ⟨0, 5⟩ (by decide),
    (get_or_create_fast_path presentFam 0).2 presentRes rfl⟩

/-- C4: the slow path inserts a freshly constructed instance for the key
unconditionally; when an instance for the key already exists (it was
inserted between the release of the shared lock and the acquisition of the
exclusive lock), the insert replaces it and the replaced instance's
identifier vanishes from the map: its accumulated state is discarded. -/
theorem slow_path_last_writer_wins (g : Family S M) (k : S) (old : Instance M)
    (hwf : g.WF) (hold : assocLookup g.metrics k = some old) :
    assocLookup (g.slowInsert k).metrics k = some ⟨g.nextId, g.constructor ()⟩ ∧
    g.nextId ≠ old.id ∧
    old.id ∉ mapIds (g.slowInsert k).metrics := by
  obtain ⟨hkeys, hids, hlt⟩ := hwf
  have hfresh : g.nextId ≠ old.id := by
    intro h
    exact lt_irrefl _ (h ▸ hlt _ (id_mem_mapIds_of_assocLookup hold))
  exact ⟨assocLookup_slowInsert_self g k, hfresh,
    old_id_not_mem_after_insert hids hold hfresh⟩

/-- A concrete `Family` state in which a racing insert has already placed
instance `⟨0, 5⟩` under key `0`. -/
def raceFam : Family Nat Nat :=
  { metrics := [(0, ⟨0, 5⟩)], nextId := 1, constructor := fun _ => 7 }

/-- Witness for C4 at a concrete input: a racing insert for key `0` placed
instance `⟨0, 5⟩`; the slow path replaces it, discarding identifier `0`. -/
theorem slow_path_last_writer_wins_concrete :
    (raceFam.WF ∧ assocLookup raceFam.metrics 0 = some ⟨0, 5⟩) ∧
    assocLookup (raceFam.slowInsert 0).metrics 0 = some ⟨1, 7⟩ ∧
    (1 : Nat) ≠ (0 : Nat) ∧
    (0 : Nat) ∉ mapIds (raceFam.slowInsert 0).metrics :=
  ⟨⟨by decide, by decide⟩,
    slow_path_last_writer_wins raceFam 0 ⟨0, 5⟩ (by decide) (by decide)⟩

end C1C3C4

/-- Modelled from the spec: the counter metric instance (the concrete metric
type `Counter<AtomicU64>` lives outside `family.rs`).  Per the spec a counter
is default-constructed at `0`, `inc` adds one, `get` reads the current
value. -/
structure Counter where
  value : Nat
  deriving DecidableEq, Repr

instance : Inhabited Counter := ⟨⟨0⟩⟩

/-- Modelled from the spec: `Counter::inc` adds one. -/
def Counter.inc (c : Counter) : Counter := ⟨c.value + 1⟩

/-- Modelled from the spec: `Counter::get` reads the current value. -/
def Counter.get (c : Counter) : Nat := c.value

section Mutation

variable {S : Type} [DecidableEq S] {M : Type}

/-- Interior mutation of the instance a handle borrows: apply `g` to the
value of the instance with identifier `c` (the map's structure — keys and
identifiers — is untouched; only the borrowed metric's own state changes). -/
def mutateById (l : List (S × Instance M)) (c : Nat) (g : M → M) :
    List (S × Instance M) :=
  l.map fun p => if p.2.id = c then (p.1, ⟨p.2.id, g p.2.value⟩) else p

/-- `handle.inc()` on a counter family: increment the instance the handle
with identifier `c` borrows. -/
def incById (l : List (S × Instance Counter)) (c : Nat) :
    List (S × Instance Counter) :=
  mutateById l c Counter.inc

/-- A counter `Family` after `handle.inc()` through the handle with
identifier `c`. -/
def Family.incHandle (f : Family S Counter) (c : Nat) : Family S Counter :=
  { f with metrics := incById f.metrics c }

end Mutation

section C2

/-- The label set `[("method", "GET")]` of the `counter_family` test. -/
def methodGET : List (String × String) := [("method", "GET")]

/-- The label set `[("method", "PUT")]` of the spec's scenario. -/
def methodPUT : List (String × String) := [("method", "PUT")]

/-- The spec's concrete scenario on an initially empty counter family:
`get_or_create(["method=GET"])`, `inc` through the handle, a second
`get_or_create(["method=GET"])` read through its handle, then a
`get_or_create(["method=PUT"])` read through its handle. -/
def counterFamilyScenario : Option (Nat × Nat) := do
  let r1 ← (Family.defaultFamily (List (String × String)) Counter).get_or_create
      methodGET
  let f1 := r1.family.incHandle r1.handleId
  let r2 ← f1.get_or_create methodGET
  let i2 ← assocLookup r2.family.metrics methodGET
  let r3 ← r2.family.get_or_create methodPUT
  let i3 ← assocLookup r3.family.metrics methodPUT
  pure (i2.value.get, i3.value.get)

variable {S : Type} [DecidableEq S] {M : Type}

/-- C2: the concrete scenario — after `get_or_create(GET).inc()`, a second
`get_or_create(GET)` reads `1` and a `get_or_create(PUT)` reads `0` — and in
general two sequential `get_or_create` calls for distinct keys never return
handles to the same instance. -/
theorem counter_family_scenario_and_distinctness :
    counterFamilyScenario = some (1, 0) ∧
    ∀ (f : Family ℕ M), f.WF → ∀ k₁ k₂ : ℕ, k₁ ≠ k₂ →
      ∀ r₁ r₂, f.get_or_create k₁ = some r₁ →
        r₁.family.get_or_create k₂ = some r₂ →
        r₁.handleId ≠ r₂.handleId := by
  constructor
  · rfl
  · intro f hwf k₁ k₂ hne r₁ r₂ h₁ h₂
    obtain ⟨a, ha, hida⟩ := get_or_create_lookup_handle h₁
    obtain ⟨b, hb, hidb⟩ := get_or_create_lookup_handle h₂
    have ha' : assocLookup r₂.family.metrics k₁ = some a := by
      rw [get_or_create_preserves_other h₂ k₁ hne]; exact ha
    have hwf₂ : r₂.family.WF := WF_get_or_create h₂ (WF_get_or_create h₁ hwf)
    rw [hida, hidb]
    exact distinct_ids_of_distinct_keys hwf₂.2.1 ha' hb hne

end C2

section C10

variable {S : Type} [DecidableEq S] {M : Type}

/-- Run a sequence of `get_or_create` calls, keeping the evolving `Family`
state (observational behaviour of a call sequence). -/
def runGocKeys (f : Family S M) : List S → Family S M
  | [] => f
  | k :: ks =>
      match f.get_or_create k with
      | some r => runGocKeys r.family ks
      | none => runGocKeys f ks

/-- C10: `Family::default()` builds the same state as
`Family::new_with_constructor(M::default)` — empty map, `M::default` as the
stored constructor — so every sequence of `get_or_create` calls behaves
identically on the two. -/
theorem default_eq_new_with_constructor (S M : Type) [DecidableEq S]
    [Inhabited M] :
    Family.defaultFamily S M
        = Family.new_with_constructor S (fun _ => (default : M)) ∧
    ∀ ks : List S,
      runGocKeys (Family.defaultFamily S M) ks
        = runGocKeys (Family.new_with_constructor S fun _ => (default : M)) ks :=
  ⟨rfl, fun _ => rfl⟩

/-- Witness for C10 at a concrete instantiation and call sequence. -/
theorem default_eq_new_with_constructor_concrete :
    Family.defaultFamily Nat Counter
        = Family.new_with_constructor Nat (fun _ => (default : Counter)) ∧
    runGocKeys (Family.defaultFamily Nat Counter) [0, 1, 0]
        = runGocKeys (Family.new_with_constructor Nat fun _ => (default : Counter))
            [0, 1, 0] :=
  ⟨(default_eq_new_with_constructor Nat Counter).1,
    (default_eq_new_with_constructor Nat Counter).2 [0, 1, 0]⟩

end C10

section C7

/-- Modelled from the spec: the declared metric kinds
(counter/gauge/histogram/...); the `MetricType` enum itself lives in the
registry layer, outside `family.rs`. -/
inductive MetricType
  | counter
  | gauge
  | histogram
  | unknown
  deriving DecidableEq, Repr

/-- Modelled from the spec: the `TypedMetric` capability — a metric type
declares one fixed kind, known at compile time, queryable without
constructing an instance.  The trait declaration lives outside
`family.rs`. -/
class TypedMetric (M : Type) where
  TYPE : MetricType

/-- Modelled from the spec: a counter declares the kind `counter`. -/
instance instTypedMetricCounter : TypedMetric Counter :=
  ⟨MetricType.counter⟩

/-- `impl<S, M: TypedMetric> TypedMetric for Family<S, M>` (`family.rs`
lines 179-181): `const TYPE: MetricType = <M as TypedMetric>::TYPE`. -/
instance instTypedMetricFamily (S M : Type) [i : TypedMetric M] :
    TypedMetric (Family S M) :=
  ⟨i.TYPE⟩

/-- C7: the `Family`'s declared metric kind is a passthrough of the wrapped
instance type's declared kind: `Family<S, M>::TYPE = M::TYPE`. -/
theorem family_type_passthrough (S M : Type) [i : TypedMetric M] :
    (instTypedMetricFamily S M).TYPE = i.TYPE := rfl

/-- Witness for C7 at a concrete instantiation. -/
theorem family_type_passthrough_counter :
    (instTypedMetricFamily Nat Counter).TYPE = instTypedMetricCounter.TYPE :=
  family_type_passthrough Nat Counter

end C7

section C8

/-- A lock-acquisition failure: the `RwLock` was poisoned by a panic in
another execution context. -/
inductive LockFailure
  | poisoned
  deriving DecidableEq, Repr

/-- One `lock().unwrap()` site: on a poisoned lock the `unwrap` propagates
the failure as an unrecoverable fault (modelled as `Except.error`);
otherwise it yields the guarded datum. -/
def lockAcquire {α : Type} (p : Bool) (a : α) : Except LockFailure α :=
  if p then Except.error LockFailure.poisoned else Except.ok a

variable {S : Type} [DecidableEq S] {M : Type}

/-- `get_or_create` with its three lock-acquisition sites explicit
(`family.rs` lines 145, 152, 157, each `.unwrap()`), on a lock whose
poisoned state is `p`. -/
def Family.get_or_create_locked (p : Bool) (f : Family S M) (k : S) :
    Except LockFailure (Option (GocResult S M)) :=
  match lockAcquire p f.metrics with
  | Except.error e => Except.error e
  | Except.ok m =>
      match assocLookup m k with
      | some inst => Except.ok (some ⟨f, inst.id, false, false⟩)
      | none =>
          match lockAcquire p f.metrics with
          | Except.error e => Except.error e
          | Except.ok _ =>
              let f' := f.slowInsert k
              match lockAcquire p f'.metrics with
              | Except.error e => Except.error e
              | Except.ok m' =>
                  match assocLookup m' k with
                  | some inst => Except.ok (some ⟨f', inst.id, true, true⟩)
                  | none => Except.ok none

/-- `Family::read` with its lock-acquisition site explicit (`family.rs`
line 166, `.unwrap()`). -/
def Family.read_locked (p : Bool) (f : Family S M) :
    Except LockFailure (List (S × Instance M)) :=
  lockAcquire p f.metrics

/-- C8: under normal operation (no poisoning) `get_or_create` and the
read-only entry point signal no recoverable error and agree with the plain
semantics; on a poisoned lock both propagate the failure as an
unrecoverable fault instead of silently yielding a wrong or empty
result. -/
theorem lock_poisoning_is_fatal (f : Family S M) (k : S) :
    Family.get_or_create_locked true f k
        = Except.error LockFailure.poisoned ∧
    Family.read_locked true f = Except.error LockFailure.poisoned ∧
    Family.get_or_create_locked false f k = Except.ok (f.get_or_create k) ∧
    Family.read_locked false f = Except.ok f.metrics := by
  refine ⟨rfl, rfl, ?_, rfl⟩
  cases hl : assocLookup f.metrics k with
  | some inst =>
      rw [get_or_create_of_found hl]
      simp [Family.get_or_create_locked, lockAcquire, hl]
  | none =>
      rw [get_or_create_of_missing hl]
      simp [Family.get_or_create_locked, lockAcquire, hl,
        assocLookup_slowInsert_self]

end C8

section C6

variable {S : Type} [DecidableEq S] {M : Type}

/-- Lookup after interior mutation through a handle: only the value of the
instance with the mutated identifier changes; keys and identifiers are
untouched. -/
theorem assocLookup_mutateById (l : List (S × Instance M)) (c : Nat)
    (g : M → M) (k : S) :
    assocLookup (mutateById l c g) k
      = (assocLookup l k).map fun i =>
          if i.id = c then ⟨i.id, g i.value⟩ else i := by
  induction l with
  | nil => rfl
  | cons p t ih =>
      obtain ⟨k₁, w⟩ := p
      by_cases hk : k₁ = k
      · by_cases hc : w.id = c
        · simp [mutateById, hc, assocLookup_cons, hk]
        · simp [mutateById, hc, assocLookup_cons, hk]
      · by_cases hc : w.id = c
        · simpa [mutateById, hc, assocLookup_cons, hk] using ih
        · simpa [mutateById, hc, assocLookup_cons, hk] using ih

/-- The contents of one `Arc<RwLock<HashMap<S, M>>>` allocation. -/
structure MapCell (S M : Type) where
  metrics : List (S × Instance M)
  nextId : Nat

/-- A heap of map allocations, addressed by reference. -/
def World (S M : Type) : Type := Nat → MapCell S M

/-- Replace the allocation at one reference. -/
def worldUpdate (w : World S M) (r : Nat) (c : MapCell S M) : World S M :=
  fun n => if n = r then c else w n

/-- A `Family` handle as held by a caller: the reference to the shared map
allocation (the `Arc`) plus the stored constructor (a copied `fn`
pointer). -/
structure FamilyHandle (S M : Type) where
  mref : Nat
  constructor : Unit → M

/-- `impl Clone for Family` (`family.rs` lines 170-177): the clone holds the
same `Arc` (`self.metrics.clone()` clones the reference, not the map) and
the same constructor. -/
def FamilyHandle.clone (h : FamilyHandle S M) : FamilyHandle S M :=
  { mref := h.mref, constructor := h.constructor }

/-- The `Family` state a handle sees in a world. -/
def FamilyHandle.view (h : FamilyHandle S M) (w : World S M) : Family S M :=
  { metrics := (w h.mref).metrics
    nextId := (w h.mref).nextId
    constructor := h.constructor }

/-- `get_or_create` through a handle: the shared allocation is read and
updated; the result records the borrowed instance's identifier and whether
the constructor ran. -/
def wGetOrCreate (w : World S M) (h : FamilyHandle S M) (k : S) :
    World S M × Option (Nat × Bool) :=
  match (h.view w).get_or_create k with
  | some r =>
      (worldUpdate w h.mref ⟨r.family.metrics, r.family.nextId⟩,
        some (r.handleId, r.constructed))
  | none => (w, none)

/-- Interior mutation of the instance borrowed by the handle with
identifier `c`, performed through a `Family` handle. -/
def wMutate (w : World S M) (h : FamilyHandle S M) (c : Nat) (g : M → M) :
    World S M :=
  worldUpdate w h.mref ⟨mutateById (w h.mref).metrics c g, (w h.mref).nextId⟩

/-- Read the instance stored for a key through a `Family` handle. -/
def wLookup (w : World S M) (h : FamilyHandle S M) (k : S) :
    Option (Instance M) :=
  assocLookup (w h.mref).metrics k

theorem worldUpdate_self (w : World S M) (r : Nat) (c : MapCell S M) :
    worldUpdate w r c r = c := by
  simp [worldUpdate]

theorem wGetOrCreate_found {w : World S M} {h : FamilyHandle S M} {k : S}
    {inst : Instance M}
    (hl : assocLookup (h.view w).metrics k = some inst) :
    (wGetOrCreate w h k).2 = some (inst.id, false) := by
  rw [wGetOrCreate, get_or_create_of_found hl]

/-- C6: a clone of a `Family` handle shares the map reference and the
constructor; after the original handle created key `k`, a `get_or_create(k)`
through the clone finds the existing instance (same identifier, no
construction); and a mutation made through the clone is visible when
reading through the original handle. -/
theorem clone_shares_cache (w : World S M) (h : FamilyHandle S M) (k : S) :
    (FamilyHandle.clone h).mref = h.mref ∧
    (FamilyHandle.clone h).constructor = h.constructor ∧
    (∀ i b, (wGetOrCreate w h k).2 = some (i, b) →
      (wGetOrCreate (wGetOrCreate w h k).1 (FamilyHandle.clone h) k).2
        = some (i, false)) ∧
    (∀ c g k', wLookup (wMutate w (FamilyHandle.clone h) c g) h k'
      = (wLookup w h k').map fun i =>
          if i.id = c then ⟨i.id, g i.value⟩ else i) := by
  refine ⟨rfl, rfl, ?_, ?_⟩
  · intro i b hres
    cases hg : (h.view w).get_or_create k with
    | none =>
        rw [wGetOrCreate, hg] at hres
        exact Option.noConfusion hres
    | some r =>
        rw [wGetOrCreate, hg] at hres
        have hib : r.handleId = i := by
          have := Option.some.inj hres
          exact congrArg Prod.fst this
        obtain ⟨inst, hlook, hid⟩ := get_or_create_lookup_handle hg
        have hworld : (wGetOrCreate w h k).1
            = worldUpdate w h.mref ⟨r.family.metrics, r.family.nextId⟩ := by
          rw [wGetOrCreate, hg]
        have hfound : assocLookup
            ((FamilyHandle.clone h).view (wGetOrCreate w h k).1).metrics k
            = some inst := by
          rw [show ((FamilyHandle.clone h).view (wGetOrCreate w h k).1).metrics
              = r.family.metrics by
            rw [hworld]; simp [FamilyHandle.view, FamilyHandle.clone, worldUpdate]]
          exact hlook
        rw [wGetOrCreate_found hfound, ← hib, hid]
  · intro c g k'
    simp [wLookup, wMutate, FamilyHandle.clone, worldUpdate_self,
      assocLookup_mutateById]

end C6

section C6Witness

/-- A world of empty counter-family allocations. -/
def cloneW : World Nat Counter := fun _ => ⟨[], 0⟩

/-- A counter-family handle onto allocation `0`. -/
def cloneH : FamilyHandle Nat Counter := ⟨0, fun _ => default⟩

/-- Witness for C6 at a concrete world, handle and key. -/
theorem clone_shares_cache_concrete :
    (FamilyHandle.clone cloneH).mref = cloneH.mref ∧
    (FamilyHandle.clone cloneH).constructor = cloneH.constructor ∧
    (wGetOrCreate cloneW cloneH 0).2 = some (0, true) ∧
    (wGetOrCreate (wGetOrCreate cloneW cloneH 0).1 (FamilyHandle.clone cloneH) 0).2
      = some (0, false) ∧
    wLookup (wMutate cloneW (FamilyHandle.clone cloneH) 0 Counter.inc) cloneH 0
      = (wLookup cloneW cloneH 0).map fun i =>
          if i.id = 0 then ⟨i.id, Counter.inc i.value⟩ else i :=
  ⟨(clone_shares_cache cloneW cloneH 0).1,
    (clone_shares_cache cloneW cloneH 0).2.1, rfl,
    (clone_shares_cache cloneW cloneH 0).2.2.1 0 true rfl,
    (clone_shares_cache cloneW cloneH 0).2.2.2 0 Counter.inc 0⟩

end C6Witness

section Concurrency

/-- Program counter of one concurrent caller running `get_or_create(k)` and
then one `inc` through the obtained handle: about to do the fast-path
lookup (`start`), about to insert under the write lock (`toInsert`), about
to re-read under the re-acquired read lock (`toReread`), holding a handle
to the instance with identifier `c` and about to `inc` it (`toInc c`),
finished (`done`), or hit the `expect` panic (`panicked`). -/
inductive TPC
  | start
  | toInsert
  | toReread
  | toInc (c : Nat)
  | done
  | panicked
  deriving DecidableEq, Repr

variable {S : Type} [DecidableEq S]

/-- One atomic step of one thread of the `get_or_create`-then-`inc`
program: the fast-path lookup under the read lock, the unconditional insert
under the write lock, the re-read under the re-acquired read lock (reaching
`panicked` exactly when the `expect` would fire), and the caller's `inc`
through the handle. -/
def threadStep (k : S) (f : Family S Counter) : TPC → Family S Counter × TPC
  | TPC.start =>
      match assocLookup f.metrics k with
      | some inst => (f, TPC.toInc inst.id)
      | none => (f, TPC.toInsert)
  | TPC.toInsert => (f.slowInsert k, TPC.toReread)
  | TPC.toReread =>
      match assocLookup f.metrics k with
      | some inst => (f, TPC.toInc inst.id)
      | none => (f, TPC.panicked)
  | TPC.toInc c => (f.incHandle c, TPC.done)
  | TPC.done => (f, TPC.done)
  | TPC.panicked => (f, TPC.panicked)

/-- A state of the concurrent system: the shared `Family` and the program
counter of every thread. -/
structure CState (S : Type) where
  fam : Family S Counter
  pcs : List TPC

/-- Let thread `t` take its next atomic step (no-op for an invalid index). -/
def stepAt (k : S) (s : CState S) (t : Nat) : CState S :=
  match s.pcs[t]? with
  | none => s
  | some pc =>
      ⟨(threadStep k s.fam pc).1, s.pcs.set t (threadStep k s.fam pc).2⟩

/-- Run the system under a schedule: an arbitrary interleaving of thread
indices. -/
def runSched (k : S) (s : CState S) : List Nat → CState S
  | [] => s
  | t :: ts => runSched k (stepAt k s t) ts

/-- `1` for a finished thread, `0` otherwise. -/
def doneWeight (pc : TPC) : Nat :=
  if pc = TPC.done then 1 else 0

/-- The number of finished threads. -/
def doneCount : List TPC → Nat
  | [] => 0
  | pc :: t => doneWeight pc + doneCount t

theorem doneWeight_le_one (pc : TPC) : doneWeight pc ≤ 1 := by
  unfold doneWeight
  split <;> omega

theorem doneCount_le_length (pcs : List TPC) : doneCount pcs ≤ pcs.length := by
  induction pcs with
  | nil => exact Nat.le_refl 0
  | cons pc t ih =>
      have := doneWeight_le_one pc
      show doneWeight pc + doneCount t ≤ t.length + 1
      omega

theorem doneCount_set {pcs : List TPC} {t : Nat} {pc : TPC}
    (h : pcs[t]? = some pc) (pc' : TPC) :
    doneCount (pcs.set t pc') + doneWeight pc
      = doneCount pcs + doneWeight pc' := by
  induction pcs generalizing t with
  | nil => simp at h
  | cons x xs ih =>
      cases t with
      | zero =>
          have hx : x = pc := by simpa using h
          show doneWeight pc' + doneCount xs + doneWeight pc
              = doneWeight x + doneCount xs + doneWeight pc'
          rw [hx]
          omega
      | succ n =>
          have hs : xs[n]? = some pc := by simpa using h
          have := ih hs
          show doneWeight x + doneCount (xs.set n pc') + doneWeight pc
              = doneWeight x + doneCount xs + doneWeight pc'
          omega

theorem mem_set_self {α : Type} {l : List α} {t : Nat} {a : α}
    (h : l[t]? = some a) (b : α) : b ∈ l.set t b := by
  induction l generalizing t with
  | nil => simp at h
  | cons y ys ih =>
      cases t with
      | zero => exact List.mem_cons_self _ _
      | succ n =>
          have hs : ys[n]? = some a := by simpa using h
          exact List.mem_cons_of_mem _ (ih hs)

theorem mem_set_of_ne {α : Type} {l : List α} {t : Nat} {a : α}
    (h : l[t]? = some a) {x : α} (hx : x ∈ l) (hne : x ≠ a) (b : α) :
    x ∈ l.set t b := by
  induction l generalizing t with
  | nil => simp at hx
  | cons y ys ih =>
      cases t with
      | zero =>
          have hy : y = a := by simpa using h
          rcases List.mem_cons.mp hx with rfl | hx'
          · exact absurd hy hne
          · exact List.mem_cons_of_mem _ hx'
      | succ n =>
          have hs : ys[n]? = some a := by simpa using h
          rcases List.mem_cons.mp hx with rfl | hx'
          · exact List.mem_cons_self _ _
          · exact List.mem_cons_of_mem _ (ih hs hx')

end Concurrency

section Invariants

variable {S : Type} [DecidableEq S] {M : Type}

theorem isSome_assocLookup_slowInsert (f : Family S M) (kk k' : S)
    (h : (assocLookup f.metrics k').isSome) :
    (assocLookup (f.slowInsert kk).metrics k').isSome := by
  by_cases hk : k' = kk
  · subst hk
    rw [assocLookup_slowInsert_self]
    rfl
  · rw [slowInsert_metrics, assocLookup_insert_ne _ _ _ _ hk]
    exact h

theorem isSome_assocLookup_mutateById (l : List (S × Instance M)) (c : Nat)
    (g : M → M) (k' : S) (h : (assocLookup l k').isSome) :
    (assocLookup (mutateById l c g) k').isSome := by
  rw [assocLookup_mutateById]
  cases ho : assocLookup l k'
  · rw [ho] at h
    exact absurd h (by simp)
  · simp

theorem incHandle_metrics (f : Family S Counter) (c : Nat) :
    (f.incHandle c).metrics = mutateById f.metrics c Counter.inc := rfl

theorem threadStep_start_found {k : S} {f : Family S Counter}
    {inst : Instance Counter} (hl : assocLookup f.metrics k = some inst) :
    threadStep k f TPC.start = (f, TPC.toInc inst.id) := by
  simp [threadStep, hl]

theorem threadStep_start_missing {k : S} {f : Family S Counter}
    (hl : assocLookup f.metrics k = none) :
    threadStep k f TPC.start = (f, TPC.toInsert) := by
  simp [threadStep, hl]

theorem threadStep_toInsert (k : S) (f : Family S Counter) :
    threadStep k f TPC.toInsert = (f.slowInsert k, TPC.toReread) := rfl

theorem threadStep_toReread_found {k : S} {f : Family S Counter}
    {inst : Instance Counter} (hl : assocLookup f.metrics k = some inst) :
    threadStep k f TPC.toReread = (f, TPC.toInc inst.id) := by
  simp [threadStep, hl]

theorem threadStep_toReread_missing {k : S} {f : Family S Counter}
    (hl : assocLookup f.metrics k = none) :
    threadStep k f TPC.toReread = (f, TPC.panicked) := by
  simp [threadStep, hl]

theorem threadStep_toInc (k : S) (f : Family S Counter) (c : Nat) :
    threadStep k f (TPC.toInc c) = (f.incHandle c, TPC.done) := rfl

theorem threadStep_done (k : S) (f : Family S Counter) :
    threadStep k f TPC.done = (f, TPC.done) := rfl

theorem threadStep_panicked (k : S) (f : Family S Counter) :
    threadStep k f TPC.panicked = (f, TPC.panicked) := rfl

/-- The safety invariant behind the `expect`: while the key is absent every
thread is still before its insert, and no thread has panicked. -/
structure SafeInv (k : S) (s : CState S) : Prop where
  absent : assocLookup s.fam.metrics k = none →
    ∀ pc ∈ s.pcs, pc = TPC.start ∨ pc = TPC.toInsert
  noPanic : ∀ pc ∈ s.pcs, pc ≠ TPC.panicked

theorem safeInv_stepAt {k : S} {s : CState S} (h : SafeInv k s) (t : Nat) :
    SafeInv k (stepAt k s t) := by
  cases hpc : s.pcs[t]? with
  | none => simpa [stepAt, hpc] using h
  | some pc =>
      have hmem : pc ∈ s.pcs := List.getElem?_mem hpc
      have hstep : stepAt k s t
          = ⟨(threadStep k s.fam pc).1, s.pcs.set t (threadStep k s.fam pc).2⟩ := by
        rw [stepAt, hpc]
      rw [hstep]
      obtain ⟨habs, hnp⟩ := h
      cases pc with
      | start =>
          cases hl : assocLookup s.fam.metrics k with
          | some inst =>
              rw [threadStep_start_found hl]
              refine ⟨fun h0 => ?_, fun pc' hpc' => ?_⟩
              · exact absurd (h0 ▸ hl) (by simp)
              · rcases List.mem_or_eq_of_mem_set hpc' with hm | rfl
                · exact hnp pc' hm
                · simp
          | none =>
              rw [threadStep_start_missing hl]
              refine ⟨fun h0 pc' hpc' => ?_, fun pc' hpc' => ?_⟩
              · rcases List.mem_or_eq_of_mem_set hpc' with hm | rfl
                · exact habs hl pc' hm
                · exact Or.inr rfl
              · rcases List.mem_or_eq_of_mem_set hpc' with hm | rfl
                · exact hnp pc' hm
                · simp
      | toInsert =>
          rw [threadStep_toInsert]
          refine ⟨fun h0 pc' hpc' => ?_, fun pc' hpc' => ?_⟩
          · exact absurd (h0 ▸ assocLookup_slowInsert_self s.fam k) (by simp)
          · rcases List.mem_or_eq_of_mem_set hpc' with hm | rfl
            · exact hnp pc' hm
            · simp
      | toReread =>
          cases hl : assocLookup s.fam.metrics k with
          | some inst =>
              rw [threadStep_toReread_found hl]
              refine ⟨fun h0 => ?_, fun pc' hpc' => ?_⟩
              · exact absurd (h0 ▸ hl) (by simp)
              · rcases List.mem_or_eq_of_mem_set hpc' with hm | rfl
                · exact hnp pc' hm
                · simp
          | none =>
              rcases habs hl _ hmem with h' | h' <;> exact absurd h' (by simp)
      | toInc c =>
          rw [threadStep_toInc]
          refine ⟨fun h0 => ?_, fun pc' hpc' => ?_⟩
          · have hpres : assocLookup s.fam.metrics k = none := by
              cases hs : assocLookup s.fam.metrics k with
              | none => rfl
              | some inst =>
                  have : (assocLookup (s.fam.incHandle c).metrics k).isSome := by
                    refine isSome_assocLookup_mutateById _ _ _ _ ?_
                    rw [hs]; rfl
                  rw [h0] at this
                  exact absurd this (by simp)
            rcases habs hpres _ hmem with h' | h' <;> exact absurd h' (by simp)
          · rcases List.mem_or_eq_of_mem_set hpc' with hm | rfl
            · exact hnp pc' hm
            · simp
      | done =>
          rw [threadStep_done]
          refine ⟨fun h0 pc' hpc' => ?_, fun pc' hpc' => ?_⟩
          · rcases List.mem_or_eq_of_mem_set hpc' with hm | rfl
            · exact habs h0 pc' hm
            · rcases habs h0 _ hmem with h' | h' <;> exact absurd h' (by simp)
          · rcases List.mem_or_eq_of_mem_set hpc' with hm | rfl
            · exact hnp pc' hm
            · exact fun hh => absurd hh (by simp)
      | panicked => exact absurd rfl (hnp _ hmem)

theorem safeInv_runSched {k : S} {s : CState S} (h : SafeInv k s)
    (sched : List Nat) : SafeInv k (runSched k s sched) := by
  induction sched generalizing s with
  | nil => exact h
  | cons t ts ih => exact ih (safeInv_stepAt h t)

end Invariants

section RaceInvariant

variable {S : Type} [DecidableEq S]

/-- The invariant of the N-caller race on one previously-unseen key: thread
count, the counter constructor yields `0`, safety, a lower-bound disjunction
(the instance currently stored for the key has already been incremented, or
some thread will still re-read, or some thread holds a handle to this very
instance and will increment it), and an upper bound by the number of
finished threads. -/
structure RaceInv (k : S) (N : Nat) (s : CState S) : Prop where
  len : s.pcs.length = N
  ctor : s.fam.constructor () = ⟨0⟩
  safe : SafeInv k s
  lower : ∀ inst, assocLookup s.fam.metrics k = some inst →
    1 ≤ inst.value.value ∨ TPC.toReread ∈ s.pcs ∨ TPC.toInc inst.id ∈ s.pcs
  upper : ∀ inst, assocLookup s.fam.metrics k = some inst →
    inst.value.value ≤ doneCount s.pcs

theorem raceInv_stepAt {k : S} {N : Nat} {s : CState S} (h : RaceInv k N s)
    (t : Nat) : RaceInv k N (stepAt k s t) := by
  have hsafe' := safeInv_stepAt h.safe t
  cases hpc : s.pcs[t]? with
  | none =>
      have heq : stepAt k s t = s := by rw [stepAt, hpc]
      rw [heq]
      exact h
  | some pc =>
      have hmem : pc ∈ s.pcs := List.getElem?_mem hpc
      have hstep : stepAt k s t
          = ⟨(threadStep k s.fam pc).1, s.pcs.set t (threadStep k s.fam pc).2⟩ := by
        rw [stepAt, hpc]
      rw [hstep] at hsafe'
      rw [hstep]
      obtain ⟨hlen, hctor, hsafe, hlow, hup⟩ := h
      cases pc with
      | start =>
          cases hl : assocLookup s.fam.metrics k with
          | some inst0 =>
              rw [threadStep_start_found hl] at hsafe' ⊢
              refine ⟨by simp [hlen], hctor, hsafe', ?_, ?_⟩
              · intro inst hinst
                have hi : inst = inst0 := by
                  rw [hl] at hinst
                  exact (Option.some.inj hinst).symm
                subst hi
                exact Or.inr (Or.inr (mem_set_self hpc _))
              · intro inst hinst
                have hdc : doneCount (s.pcs.set t (TPC.toInc inst0.id))
                    = doneCount s.pcs := by
                  have h2 := doneCount_set hpc (TPC.toInc inst0.id)
                  simpa [doneWeight] using h2
                rw [hdc]
                exact hup inst hinst
          | none =>
              rw [threadStep_start_missing hl] at hsafe' ⊢
              refine ⟨by simp [hlen], hctor, hsafe', ?_, ?_⟩
              · intro inst hinst
                exact absurd (hl ▸ hinst) (by simp)
              · intro inst hinst
                exact absurd (hl ▸ hinst) (by simp)
      | toInsert =>
          rw [threadStep_toInsert] at hsafe' ⊢
          refine ⟨by simp [hlen], hctor, hsafe', ?_, ?_⟩
          · intro inst hinst
            exact Or.inr (Or.inl (mem_set_self hpc _))
          · intro inst hinst
            have hi : inst = ⟨s.fam.nextId, s.fam.constructor ()⟩ := by
              rw [assocLookup_slowInsert_self] at hinst
              exact (Option.some.inj hinst).symm
            rw [hi, hctor]
            exact Nat.zero_le _
      | toReread =>
          cases hl : assocLookup s.fam.metrics k with
          | some inst0 =>
              rw [threadStep_toReread_found hl] at hsafe' ⊢
              refine ⟨by simp [hlen], hctor, hsafe', ?_, ?_⟩
              · intro inst hinst
                have hi : inst = inst0 := by
                  rw [hl] at hinst
                  exact (Option.some.inj hinst).symm
                subst hi
                exact Or.inr (Or.inr (mem_set_self hpc _))
              · intro inst hinst
                have hdc : doneCount (s.pcs.set t (TPC.toInc inst0.id))
                    = doneCount s.pcs := by
                  have h2 := doneCount_set hpc (TPC.toInc inst0.id)
                  simpa [doneWeight] using h2
                rw [hdc]
                exact hup inst hinst
          | none =>
              rcases hsafe.absent hl _ hmem with h' | h' <;>
                exact absurd h' (by simp)
      | toInc c =>
          rw [threadStep_toInc] at hsafe' ⊢
          have hdc : doneCount (s.pcs.set t TPC.done)
              = doneCount s.pcs + 1 := by
            have h2 := doneCount_set hpc TPC.done
            simp [doneWeight] at h2
            omega
          refine ⟨by simp [hlen], hctor, hsafe', ?_, ?_⟩
          · intro inst' hinst'
            rw [incHandle_metrics, assocLookup_mutateById] at hinst'
            cases hs : assocLookup s.fam.metrics k with
            | none =>
                rw [hs] at hinst'
                exact absurd hinst' (by simp)
            | some inst =>
                rw [hs] at hinst'
                have hi' : inst'
                    = if inst.id = c then ⟨inst.id, Counter.inc inst.value⟩
                      else inst := (Option.some.inj hinst').symm
                by_cases hc : inst.id = c
                · rw [hi', if_pos hc]
                  left
                  show 1 ≤ (Counter.inc inst.value).value
                  simp [Counter.inc]
                · rw [hi', if_neg hc]
                  rcases hlow inst hs with hv | hr | hi
                  · exact Or.inl hv
                  · exact Or.inr (Or.inl (mem_set_of_ne hpc hr (by simp) _))
                  · refine Or.inr (Or.inr (mem_set_of_ne hpc hi ?_ _))
                    intro hh
                    exact hc (TPC.toInc.inj hh)
          · intro inst' hinst'
            rw [incHandle_metrics, assocLookup_mutateById] at hinst'
            cases hs : assocLookup s.fam.metrics k with
            | none =>
                rw [hs] at hinst'
                exact absurd hinst' (by simp)
            | some inst =>
                rw [hs] at hinst'
                have hi' : inst'
                    = if inst.id = c then ⟨inst.id, Counter.inc inst.value⟩
                      else inst := (Option.some.inj hinst').symm
                have hb := hup inst hs
                by_cases hc : inst.id = c
                · rw [hi', if_pos hc, hdc]
                  show (Counter.inc inst.value).value ≤ doneCount s.pcs + 1
                  simp [Counter.inc]
                  omega
                · rw [hi', if_neg hc, hdc]
                  omega
      | done =>
          rw [threadStep_done] at hsafe' ⊢
          have hdc : doneCount (s.pcs.set t TPC.done) = doneCount s.pcs := by
            have h2 := doneCount_set hpc TPC.done
            simp [doneWeight] at h2
            omega
          refine ⟨by simp [hlen], hctor, hsafe', ?_, ?_⟩
          · intro inst hinst
            rcases hlow inst hinst with hv | hr | hi
            · exact Or.inl hv
            · exact Or.inr (Or.inl (mem_set_of_ne hpc hr (by simp) _))
            · exact Or.inr (Or.inr (mem_set_of_ne hpc hi (by simp) _))
          · intro inst hinst
            rw [hdc]
            exact hup inst hinst
      | panicked => exact absurd rfl (hsafe.noPanic _ hmem)

theorem raceInv_runSched {k : S} {N : Nat} {s : CState S} (h : RaceInv k N s)
    (sched : List Nat) : RaceInv k N (runSched k s sched) := by
  induction sched generalizing s with
  | nil => exact h
  | cons t ts ih => exact ih (raceInv_stepAt h t)

end RaceInvariant

section C5C9

variable {S : Type} [DecidableEq S]

/-- C5: the re-lookup after the insert always succeeds, so the panic branch
guarded by `expect("Metric to exist after creating it.")` is unreachable:
no operation of the `Family` ever removes an entry (presence of any key is
preserved by the slow-path insert, by interior mutation through a handle,
and by whole `get_or_create` calls), sequentially `get_or_create` always
returns a handle, and under every concurrent schedule no thread ever
reaches the panic. -/
theorem expect_panic_unreachable (f : Family S Counter) (k k' : S) (c : Nat)
    (N : Nat) (sched : List Nat) :
    ((assocLookup f.metrics k').isSome →
      (assocLookup (f.slowInsert k).metrics k').isSome) ∧
    ((assocLookup f.metrics k').isSome →
      (assocLookup (f.incHandle c).metrics k').isSome) ∧
    (∀ r, f.get_or_create k = some r → (assocLookup f.metrics k').isSome →
      (assocLookup r.family.metrics k').isSome) ∧
    (f.get_or_create k).isSome ∧
    (∀ pc ∈ (runSched k ⟨f, List.replicate N TPC.start⟩ sched).pcs,
      pc ≠ TPC.panicked) := by
  refine ⟨isSome_assocLookup_slowInsert f k k',
    fun h => isSome_assocLookup_mutateById f.metrics c Counter.inc k' h,
    ?_, get_or_create_isSome f k, ?_⟩
  · intro r hr h
    cases hl : assocLookup f.metrics k with
    | some inst =>
        rw [get_or_create_of_found hl] at hr
        obtain rfl := (Option.some.inj hr).symm
        exact h
    | none =>
        rw [get_or_create_of_missing hl] at hr
        obtain rfl := (Option.some.inj hr).symm
        exact isSome_assocLookup_slowInsert f k k' h
  · have hinit : SafeInv k (⟨f, List.replicate N TPC.start⟩ : CState S) := by
      refine ⟨fun h0 pc hpc => ?_, fun pc hpc => ?_⟩
      · exact Or.inl (List.eq_of_mem_replicate hpc)
      · rw [List.eq_of_mem_replicate hpc]
        simp
    exact (safeInv_runSched hinit sched).noPanic

/-- C9: if `N ≥ 1` concurrent callers each run `get_or_create(k)` for the
same previously-unseen key and each increments the obtained counter once,
then under every schedule that finishes all threads, an instance for `k` is
present and the surviving instance's value lies between `1` and `N`. -/
theorem race_final_value_bounded (f : Family S Counter) (k : S) (N : Nat)
    (sched : List Nat) (hN : 1 ≤ N)
    (hctor : f.constructor () = ⟨0⟩)
    (habs : assocLookup f.metrics k = none)
    (hdone : ∀ pc ∈ (runSched k ⟨f, List.replicate N TPC.start⟩ sched).pcs,
      pc = TPC.done) :
    ∃ inst,
      assocLookup
          (runSched k ⟨f, List.replicate N TPC.start⟩ sched).fam.metrics k
        = some inst ∧
      1 ≤ inst.value.get ∧ inst.value.get ≤ N := by
  have hinit : RaceInv k N (⟨f, List.replicate N TPC.start⟩ : CState S) := by
    refine ⟨List.length_replicate .., hctor,
      ⟨fun h0 pc hpc => Or.inl (List.eq_of_mem_replicate hpc),
        fun pc hpc => by rw [List.eq_of_mem_replicate hpc]; simp⟩, ?_, ?_⟩
    · intro inst hinst
      exact absurd (habs ▸ hinst) (by simp)
    · intro inst hinst
      exact absurd (habs ▸ hinst) (by simp)
  have hfin := raceInv_runSched hinit sched
  cases hl : assocLookup
      (runSched k ⟨f, List.replicate N TPC.start⟩ sched).fam.metrics k with
  | none =>
      exfalso
      have hlen := hfin.len
      have hne : (runSched k ⟨f, List.replicate N TPC.start⟩ sched).pcs ≠ [] := by
        intro h0
        rw [h0] at hlen
        simp at hlen
        omega
      obtain ⟨pc0, hpc0⟩ := List.exists_mem_of_ne_nil _ hne
      have hd := hdone pc0 hpc0
      rcases hfin.safe.absent hl pc0 hpc0 with h' | h' <;>
        · rw [hd] at h'
          exact absurd h' (by simp)
  | some inst =>
      refine ⟨inst, rfl, ?_, ?_⟩
      · rcases hfin.lower inst hl with hv | hr | hi
        · exact hv
        · have := hdone _ hr
          exact absurd this (by simp)
        · have := hdone _ hi
          exact absurd this (by simp)
      · have h1 := hfin.upper inst hl
        have h2 := doneCount_le_length
            (runSched k ⟨f, List.replicate N TPC.start⟩ sched).pcs
        rw [hfin.len] at h2
        show inst.value.value ≤ N
        omega

end C5C9

section C5C9Witness

/-- A concrete counter `Family` in which key `0` is already present. -/
def cFam : Family Nat Counter :=
  (Family.defaultFamily Nat Counter).slowInsert 0

/-- The result of `get_or_create(1)` on `cFam`. -/
def r1c : GocResult Nat Counter :=
  ⟨cFam.slowInsert 1, 1, true, true⟩

/-- Witness for C5 at concrete inputs. -/
theorem expect_panic_unreachable_concrete :
    (assocLookup cFam.metrics 0).isSome ∧
    (assocLookup (cFam.slowInsert 1).metrics 0).isSome ∧
    (assocLookup (cFam.incHandle 0).metrics 0).isSome ∧
    cFam.get_or_create 1 = some r1c ∧
    (assocLookup r1c.family.metrics 0).isSome ∧
    (cFam.get_or_create 1).isSome ∧
    ¬ TPC.panicked
        ∈ (runSched 1 ⟨cFam, List.replicate 2 TPC.start⟩ [0, 0, 1, 1]).pcs :=
  ⟨by decide,
    (expect_panic_unreachable cFam 1 0 0 2 [0, 0, 1, 1]).1 (by decide),
    (expect_panic_unreachable cFam 1 0 0 2 [0, 0, 1, 1]).2.1 (by decide),
    rfl,
    (expect_panic_unreachable cFam 1 0 0 2 [0, 0, 1, 1]).2.2.1 r1c rfl
      (by decide),
    (expect_panic_unreachable cFam 1 0 0 2 [0, 0, 1, 1]).2.2.2.1,
    fun hmem =>
      (expect_panic_unreachable cFam 1 0 0 2 [0, 0, 1, 1]).2.2.2.2
        TPC.panicked hmem rfl⟩

/-- Witness for C9: two threads race on unseen key `0`; thread `0` runs the
whole slow path and its increment, then thread `1` takes the fast path and
increments; the surviving value is between `1` and `2`. -/
theorem race_final_value_bounded_concrete :
    ∃ inst,
      assocLookup
          (runSched 0
            ⟨Family.defaultFamily Nat Counter, List.replicate 2 TPC.start⟩
            [0, 0, 0, 0, 1, 1]).fam.metrics 0
        = some inst ∧
      1 ≤ inst.value.get ∧ inst.value.get ≤ 2 :=
  race_final_value_bounded (Family.defaultFamily Nat Counter) 0 2
    [0, 0, 0, 0, 1, 1] (by decide) rfl rfl (by decide)

end C5C9Witness

section MoreWitnesses

/-- The slow-path result of `get_or_create(0)` on the empty default counter
family. -/
def dRes1 : GocResult Nat Counter :=
  ⟨(Family.defaultFamily Nat Counter).slowInsert 0, 0, true, true⟩

/-- The slow-path result of the subsequent `get_or_create(1)`. -/
def dRes2 : GocResult Nat Counter :=
  ⟨((Family.defaultFamily Nat Counter).slowInsert 0).slowInsert 1, 1, true, true⟩

/-- Witness for C2: the scenario value, and distinctness of the handles for
keys `0` and `1` on the empty default counter family. -/
theorem counter_family_scenario_and_distinctness_concrete :
    counterFamilyScenario = some (1, 0) ∧
    (Family.defaultFamily Nat Counter).WF ∧
    (0 : Nat) ≠ 1 ∧
    (Family.defaultFamily Nat Counter).get_or_create 0 = some dRes1 ∧
    dRes1.family.get_or_create 1 = some dRes2 ∧
    dRes1.handleId ≠ dRes2.handleId :=
  ⟨(counter_family_scenario_and_distinctness (M := Counter)).1,
    by decide, by decide, rfl, rfl,
    (counter_family_scenario_and_distinctness (M := Counter)).2
      (Family.defaultFamily Nat Counter) (by decide) 0 1 (by decide)
      dRes1 dRes2 rfl rfl⟩

/-- Witness for C8 at concrete inputs. -/
theorem lock_poisoning_is_fatal_concrete :
    Family.get_or_create_locked true cFam 0
        = Except.error LockFailure.poisoned ∧
    Family.read_locked true cFam = Except.error LockFailure.poisoned ∧
    Family.get_or_create_locked false cFam 0 = Except.ok (cFam.get_or_create 0) ∧
    Family.read_locked false cFam = Except.ok cFam.metrics :=
  lock_poisoning_is_fatal cFam 0

end MoreWitnesses
